import Mathlib

/-!
Verification of the Harmony parser (`src/app/parsers/harmony.py`).

The parser classifies a model-generated token stream into three logical
channels (reasoning, tool calls, final content).  The external
`openai_harmony` engine (tokenizer, incremental decoder, message
segmentation) is out of scope per the design and is modelled abstractly
by an `Engine` structure; all theorems are universally quantified over it
unless a concrete instance is needed as a witness.  Text is modelled as
`List Char`; Python's falsy test on an optional/possibly-empty string
delta is modelled as emptiness of the list.
-/

namespace HarmonySpec

/-- Text, modelled as a list of characters. -/
abbrev Str := List Char

/-- Python `l.startswith(m)` on strings, used to implement substring search. -/
def startsWithSub (m l : Str) : Bool :=
  match m, l with
  | [], _ => true
  | _ :: _, [] => false
  | a :: as, b :: bs => a == b && startsWithSub as bs

/-- Python `m in l` (substring containment). -/
def containsSub (m : Str) : Str → Bool
  | [] => startsWithSub m []
  | c :: rest => startsWithSub m (c :: rest) || containsSub m rest

/-- Python `l[:l.find(m) + len(m)]` for `m in l`: keep everything up to and
including the first occurrence of `m`.  (When `m` does not occur, this
returns `l` unchanged; the source only applies it after an `in` check.) -/
def truncAfter (m : Str) : Str → Str
  | [] => []
  | c :: rest => if startsWithSub m (c :: rest) then m else c :: truncAfter m rest

/-- Python `l.replace(m, r)` for a non-empty pattern `m`: replace every
(non-overlapping, leftmost-first) occurrence of `m` in `l` by `r`.  The
recursion is driven by a fuel argument equal to `l.length`, which is
sufficient because every step consumes at least one element of `l`;
this keeps the definition structurally recursive (kernel-reducible). -/
def replaceSubAux (m r : Str) : Nat → Str → Str
  | 0, l => l
  | _ + 1, [] => []
  | fuel + 1, c :: rest =>
    if startsWithSub m (c :: rest) && !m.isEmpty then
      r ++ replaceSubAux m r fuel (List.drop (m.length - 1) rest)
    else
      c :: replaceSubAux m r fuel rest

/-- Python `l.replace(m, r)` (all occurrences), for non-empty `m`. -/
def replaceSub (m r l : Str) : Str := replaceSubAux m r l.length l

/-! ## The external engine (openai_harmony), modelled abstractly -/

/-- One incremental decode event: what `StreamableParser.process` exposes to
the parser after consuming one token (`last_content_delta`,
`current_channel`, `current_recipient`). -/
structure StreamEvent where
  last_content_delta : Str
  current_channel : Str
  current_recipient : Option Str
deriving DecidableEq

/-- One fully decoded message as produced by
`parse_messages_from_completion_tokens`: channel tag, optional recipient,
and the texts of its content blocks (the source reads `content[0].text`). -/
structure Message where
  channel : Str
  recipient : Option Str
  content : List Str
deriving DecidableEq

/-- The external tokenizer / decoder engine.  `σ` is the internal state of
the stateful incremental decoder (`StreamableParser`); `encode` and
`parse_messages_from_completion_tokens` are the stateless one-shot
facilities of the encoding object. -/
structure Engine (σ : Type) where
  encode : Str → List Nat
  process : σ → Nat → σ × StreamEvent
  parse_messages_from_completion_tokens : List Nat → List Message

/-- The trace of events the incremental decoder produces from state `s` on a
token list (one event per token, threading the decoder state). -/
def events {σ : Type} (E : Engine σ) : σ → List Nat → List StreamEvent
  | _, [] => []
  | s, t :: ts => (E.process s t).2 :: events E (E.process s t).1 ts

/-- The decoder state after consuming a token list from state `s`. -/
def decoderAfter {σ : Type} (E : Engine σ) : σ → List Nat → σ
  | s, [] => s
  | s, t :: ts => decoderAfter E (E.process s t).1 ts

/-! ## Data model of the parser -/

/- `ChannelType` enumeration values from the source (string-valued enum). -/
namespace ChannelType

def ANALYSIS : Str := "analysis".toList

def COMMENTARY : Str := "commentary".toList

def FINAL : Str := "final".toList

end ChannelType

/-- The `ToolParserState` enumeration from the source. -/
inductive ToolParserState
  | NORMAL
  | FOUND_ARGUMENTS
  | END_STREAM
deriving DecidableEq

/-- The `"functions."` literal used to detect and strip tool recipients. -/
def functionsMarker : Str := "functions.".toList

/-- The `self.end_tool_chunk` literal (`"<|call|>"`). -/
def end_tool_chunk : Str := "<|call|>".toList

/-- The mutable state of a `HarmonyParser` instance: the incremental decoder
state (`self.parser`) plus the tool-call state machine fields. -/
structure HarmonyParser (σ : Type) where
  parser : σ
  state : ToolParserState
  arguments_buffer : List Str
  function_name_buffer : Str
deriving DecidableEq

/-- Constructor `HarmonyParser.__init__`: fresh state machine around a fresh decoder. -/
def HarmonyParser.init {σ : Type} (s0 : σ) : HarmonyParser σ :=
  { parser := s0
    state := ToolParserState.NORMAL
    arguments_buffer := []
    function_name_buffer := [] }

/-- A completed tool call as emitted in results. -/
structure ToolCall where
  name : Str
  arguments : Str
deriving DecidableEq

/-- Result dictionary of `_build_result` (streaming path); `tool_calls` is
`none` when the source passes Python `None`. -/
structure StreamResult where
  reasoning_content : Option Str
  tool_calls : Option (List ToolCall)
  content : Option Str
deriving DecidableEq

/-- Result dictionary of one-shot `parse`. -/
structure OneShotResult where
  content : Option Str
  tool_calls : List ToolCall
  reasoning_content : Option Str
deriving DecidableEq

/-- Python `"".join(xs) or None`. -/
def joinOrNone (xs : List Str) : Option Str :=
  if xs.flatten = [] then none else some xs.flatten

/-- Method `HarmonyParser._build_result` from the source. -/
def build_result (reasoning_contents : List Str) (tool_calls : Option (List ToolCall))
    (contents : List Str) : StreamResult :=
  { reasoning_content := joinOrNone reasoning_contents
    tool_calls := tool_calls
    content := joinOrNone contents }

/-- The `is_tool_call` test shared by `parse` and `parse_streaming`:
channel equals the commentary marker, or the recipient is non-empty and
contains the `"functions."` marker. -/
def isToolCallCheck (current_channel current_recipient : Str) : Bool :=
  current_channel == ChannelType.COMMENTARY ||
    (!current_recipient.isEmpty && containsSub functionsMarker current_recipient)

/-! ## One-shot parse -/

/-- Initial value of the `result` dictionary in `parse`. -/
def initOneShot : OneShotResult :=
  { content := none, tool_calls := [], reasoning_content := none }

/-- The body of the `for message in parsed_messages` loop in `parse`:
tool-call messages (with non-empty recipient) append to `tool_calls`;
analysis/final messages overwrite the corresponding field. -/
def parseMessageStep (r : OneShotResult) (message : Message) : OneShotResult :=
  let recipient := message.recipient.getD []
  let is_tool_call := isToolCallCheck message.channel recipient
  if is_tool_call && !recipient.isEmpty then
    { r with tool_calls := r.tool_calls ++
        [{ name := replaceSub functionsMarker [] recipient
           arguments := message.content.headD [] }] }
  else if message.channel = ChannelType.ANALYSIS then
    { r with reasoning_content := some (message.content.headD []) }
  else if message.channel = ChannelType.FINAL then
    { r with content := some (message.content.headD []) }
  else r

/-- Method `HarmonyParser.parse`: one-shot parse of a complete text.  The method
reads no stream-state field and performs no mutation, so its embedding
returns the parser state unchanged alongside the result. -/
def HarmonyParser.parse {σ : Type} (E : Engine σ) (ps : HarmonyParser σ) (text : Str) :
    HarmonyParser σ × OneShotResult :=
  let text1 := if containsSub end_tool_chunk text then truncAfter end_tool_chunk text else text
  let tokens := E.encode text1
  let parsed_messages := E.parse_messages_from_completion_tokens tokens
  (ps, parsed_messages.foldl parseMessageStep initOneShot)

/-! ## Streaming parse -/

/-- Loop state of the `for chunk_token in chunk_tokens` loop in
`parse_streaming`: the mutable parser fields plus the call-local
`reasoning_contents` / `contents` accumulators. -/
structure ChunkAcc (σ : Type) where
  ps : HarmonyParser σ
  reasoning_contents : List Str
  contents : List Str
deriving DecidableEq

/-- One iteration of the token loop of `parse_streaming`. -/
def processToken {σ : Type} (E : Engine σ) (acc : ChunkAcc σ) (chunk_token : Nat) :
    ChunkAcc σ :=
  let p' := (E.process acc.ps.parser chunk_token).1
  let ev := (E.process acc.ps.parser chunk_token).2
  let ps1 : HarmonyParser σ := { acc.ps with parser := p' }
  let content := ev.last_content_delta
  if content.isEmpty then
    { acc with ps := ps1 }
  else if ps1.state = ToolParserState.FOUND_ARGUMENTS then
    { acc with ps := { ps1 with arguments_buffer := ps1.arguments_buffer ++ [content] } }
  else
    let current_channel := ev.current_channel
    let current_recipient := ev.current_recipient.getD []
    if isToolCallCheck current_channel current_recipient then
      { acc with ps := { ps1 with
          state := ToolParserState.FOUND_ARGUMENTS
          arguments_buffer := ps1.arguments_buffer ++ [content]
          function_name_buffer := replaceSub functionsMarker [] current_recipient } }
    else if current_channel = ChannelType.ANALYSIS then
      { acc with ps := ps1, reasoning_contents := acc.reasoning_contents ++ [content] }
    else if current_channel = ChannelType.FINAL then
      { acc with ps := ps1, contents := acc.contents ++ [content] }
    else
      { acc with ps := ps1 }

/-- Method `HarmonyParser.parse_streaming`: process one chunk of an ongoing stream.
Returns the updated parser state together with the pair
(result-or-none, stream-complete flag) the method returns. -/
def HarmonyParser.parse_streaming {σ : Type} (E : Engine σ) (ps : HarmonyParser σ)
    (chunk : Str) : HarmonyParser σ × (Option StreamResult × Bool) :=
  if ps.state = ToolParserState.END_STREAM then
    (ps, (none, true))
  else
    let end_stream_state := containsSub end_tool_chunk chunk
    let chunk1 :=
      if containsSub end_tool_chunk chunk then truncAfter end_tool_chunk chunk else chunk
    let chunk_tokens := E.encode chunk1
    let acc := chunk_tokens.foldl (processToken E) (ChunkAcc.mk ps [] [])
    if end_stream_state then
      let tool_calls : List ToolCall :=
        [{ name := acc.ps.function_name_buffer, arguments := acc.ps.arguments_buffer.flatten }]
      ({ acc.ps with
          arguments_buffer := []
          function_name_buffer := []
          state := ToolParserState.END_STREAM },
       (some (build_result acc.reasoning_contents (some tool_calls) acc.contents), true))
    else
      (acc.ps, (some (build_result acc.reasoning_contents none acc.contents), false))

/-- Method `HarmonyParser.handle_parse_streaming_end`: flush a pending tool call by
feeding the end marker through the streaming path. -/
def HarmonyParser.handle_parse_streaming_end {σ : Type} (E : Engine σ)
    (ps : HarmonyParser σ) : HarmonyParser σ × (Option StreamResult × Bool) :=
  if ps.state = ToolParserState.FOUND_ARGUMENTS then
    ps.parse_streaming E end_tool_chunk
  else
    (ps, (none, false))

/-! ## Streaming sessions -/

/-- Feed a list of chunks through `parse_streaming` in sequence, collecting
the per-call outputs. -/
def runChunks {σ : Type} (E : Engine σ) (ps : HarmonyParser σ) :
    List Str → HarmonyParser σ × List (Option StreamResult × Bool)
  | [] => (ps, [])
  | c :: cs =>
    let step := ps.parse_streaming E c
    let rest := runChunks E step.1 cs
    (rest.1, step.2 :: rest.2)

/-- The parser states reachable by any sequence of `parse_streaming` /
`handle_parse_streaming_end` calls on one instance created by `__init__`. -/
inductive Reachable {σ : Type} (E : Engine σ) (s0 : σ) : HarmonyParser σ → Prop
  | init : Reachable E s0 (HarmonyParser.init s0)
  | step (ps : HarmonyParser σ) (c : Str) :
      Reachable E s0 ps → Reachable E s0 (ps.parse_streaming E c).1
  | flush (ps : HarmonyParser σ) :
      Reachable E s0 ps → Reachable E s0 (ps.handle_parse_streaming_end E).1

/-! ## A concrete engine for witnesses

The decoder state is the list of scripted events still to be emitted;
`encode` produces one token per character, and `process` pops the next
scripted event (emitting a blank event when the script is exhausted). -/

/-- A scripted engine used to instantiate the abstract theorems. -/
def scriptEngine (msgs : List Message) : Engine (List StreamEvent) :=
  { encode := fun t => t.map Char.toNat
    process := fun s _ =>
      match s with
      | [] => ([], { last_content_delta := [], current_channel := [], current_recipient := none })
      | ev :: rest => (rest, ev)
    parse_messages_from_completion_tokens := fun _ => msgs }

/-! ## Derived / spec-side definitions used in theorem statements -/

/-- Index of the first occurrence of `m` in `t` (meaningful when `m` occurs). -/
def firstOccur (m : Str) : Str → Nat
  | [] => 0
  | c :: rest => if startsWithSub m (c :: rest) then 0 else firstOccur m rest + 1

/-- Modelled from the spec's words for the marker-truncation property: the
prefix of `t` ending immediately after the first occurrence of `m`
(`C[0..i+len(M)]` for the first occurrence at offset `i`). -/
def specTruncate (m t : Str) : Str := t.take (firstOccur m t + m.length)

/-- The token-loop fold of `parse_streaming` applied to chunk text `c`
(after any truncation), starting from parser state `ps`. -/
def chunkFold {σ : Type} (E : Engine σ) (ps : HarmonyParser σ) (c : Str) : ChunkAcc σ :=
  (E.encode c).foldl (processToken E) (ChunkAcc.mk ps [] [])

/-- The text deltas carried by a list of decode events. -/
def deltasList (evs : List StreamEvent) : List Str :=
  evs.map StreamEvent.last_content_delta

/-- The non-empty text deltas carried by a list of decode events. -/
def nonEmptyDeltas (evs : List StreamEvent) : List Str :=
  (deltasList evs).filter (fun d => !d.isEmpty)

/-- Whether a decode event would be classified as a tool call by the
streaming loop (commentary channel, or recipient containing the marker). -/
def eventIsToolCall (ev : StreamEvent) : Bool :=
  isToolCallCheck ev.current_channel (ev.current_recipient.getD [])

/-- Number of tool-call entries emitted by one `parse_streaming` output. -/
def emitLen (o : Option StreamResult × Bool) : Nat :=
  match o.1 with
  | none => 0
  | some r => (r.tool_calls.getD []).length

/-- The per-call tool-call emission counts of a whole session: one entry is
emitted at the first chunk containing the end marker, and none anywhere
else. -/
def emissionPattern : List Str → List Nat
  | [] => []
  | c :: cs =>
    if containsSub end_tool_chunk c then 1 :: cs.map (fun _ => 0)
    else 0 :: emissionPattern cs

/-- Index of the first chunk of a session that contains the end marker. -/
def firstMarkerIdx : List Str → Option Nat
  | [] => none
  | c :: cs =>
    if containsSub end_tool_chunk c then some 0 else (firstMarkerIdx cs).map (· + 1)

/-- The buffer invariant of the state machine: in `NORMAL` and in
`END_STREAM` state both tool-call buffers are empty. -/
def StateInv {σ : Type} (ps : HarmonyParser σ) : Prop :=
  (ps.state = ToolParserState.NORMAL →
    ps.arguments_buffer = [] ∧ ps.function_name_buffer = []) ∧
  (ps.state = ToolParserState.END_STREAM →
    ps.arguments_buffer = [] ∧ ps.function_name_buffer = [])

/-! ## Concrete fixtures for witnesses and counterexamples -/

/-- An analysis-channel event. -/
def analysisEvent : StreamEvent :=
  { last_content_delta := "think".toList, current_channel := ChannelType.ANALYSIS
    current_recipient := none }

/-- A final-channel event. -/
def finalEvent : StreamEvent :=
  { last_content_delta := "hello".toList, current_channel := ChannelType.FINAL
    current_recipient := none }

/-- A commentary-channel tool-call event with a recipient. -/
def toolEvent : StreamEvent :=
  { last_content_delta := "arg1".toList, current_channel := ChannelType.COMMENTARY
    current_recipient := some "functions.get_weather".toList }

/-- A commentary-channel event with no recipient at all. -/
def commEvent : StreamEvent :=
  { last_content_delta := "x".toList, current_channel := ChannelType.COMMENTARY
    current_recipient := none }

/-- A decoded commentary message with absent recipient. -/
def msgCommentaryNoRecipient : Message :=
  { channel := ChannelType.COMMENTARY, recipient := none, content := ["x".toList] }

/-- The scripted engine with no decoded messages. -/
def engNone : Engine (List StreamEvent) := scriptEngine []

/-- The scripted engine decoding to a single recipient-less commentary
message. -/
def engCommMsg : Engine (List StreamEvent) := scriptEngine [msgCommentaryNoRecipient]

/-- A concrete parser instance captured mid-tool-call. -/
def psFound : HarmonyParser (List StreamEvent) :=
  { parser := []
    state := ToolParserState.FOUND_ARGUMENTS
    arguments_buffer := ["ar".toList]
    function_name_buffer := "f".toList }

/-- A concrete two-chunk session whose second chunk carries the end marker. -/
def chunksW : List Str := ["ab".toList, "<|call|>".toList]

/-- A fresh parser whose scripted decoder will emit an analysis and then a
final delta. -/
def psAF : HarmonyParser (List StreamEvent) :=
  HarmonyParser.init [analysisEvent, finalEvent]

/-! ## Lemmas about the substring machinery -/

theorem startsWithSub_self (m : Str) : startsWithSub m m = true := by
  induction m with
  | nil => rfl
  | cons a as ih => simp [startsWithSub, ih]

theorem take_of_startsWithSub :
    ∀ (m l : Str), startsWithSub m l = true → l.take m.length = m := by
  intro m
  induction m with
  | nil => intro l _; simp
  | cons a as ih =>
    intro l h
    cases l with
    | nil => simp [startsWithSub] at h
    | cons b bs =>
      simp only [startsWithSub, Bool.and_eq_true, beq_iff_eq] at h
      simp [List.take, h.1.symm, ih bs h.2]

theorem startsWithSub_of_take :
    ∀ (m : Str) (k : Nat) (l : Str),
      startsWithSub m (l.take k) = true → startsWithSub m l = true := by
  intro m
  induction m with
  | nil => intro k l _; rfl
  | cons a as ih =>
    intro k l h
    cases k with
    | zero => simp [startsWithSub] at h
    | succ k =>
      cases l with
      | nil => simp [startsWithSub] at h
      | cons b bs =>
        simp only [List.take, startsWithSub, Bool.and_eq_true] at h ⊢
        exact ⟨h.1, ih k bs h.2⟩

theorem containsSub_of_startsWithSub (m l : Str) (h : startsWithSub m l = true) :
    containsSub m l = true := by
  cases l with
  | nil => exact h
  | cons c rest => simp [containsSub, h]

theorem containsSub_self (m : Str) : containsSub m m = true :=
  containsSub_of_startsWithSub m m (startsWithSub_self m)

theorem truncAfter_eq_take (m : Str) :
    ∀ t : Str, ∃ k : Nat, truncAfter m t = t.take k := by
  intro t
  induction t with
  | nil => exact ⟨0, rfl⟩
  | cons c rest ih =>
    by_cases h : startsWithSub m (c :: rest) = true
    · refine ⟨m.length, ?_⟩
      have ht : (c :: rest).take m.length = m := take_of_startsWithSub m _ h
      simp [truncAfter, h, ht]
    · obtain ⟨k, hk⟩ := ih
      exact ⟨k + 1, by simp [truncAfter, h, List.take, hk]⟩

theorem truncAfter_eq_specTruncate (m : Str) :
    ∀ t : Str, containsSub m t = true → truncAfter m t = specTruncate m t := by
  intro t
  induction t with
  | nil =>
    intro h
    cases m with
    | nil => rfl
    | cons a as => simp [containsSub, startsWithSub] at h
  | cons c rest ih =>
    intro h
    by_cases hs : startsWithSub m (c :: rest) = true
    · simp [truncAfter, hs, specTruncate, firstOccur, take_of_startsWithSub m _ hs]
    · have hrest : containsSub m rest = true := by
        simpa [containsSub, hs] using h
      have hs' : startsWithSub m (c :: rest) = false := by simpa using hs
      have ihr := ih hrest
      simp only [truncAfter, hs', Bool.false_eq_true, if_false, specTruncate, firstOccur]
      rw [Nat.add_right_comm, List.take_succ_cons, ihr]
      rfl

theorem containsSub_truncAfter (m : Str) :
    ∀ t : Str, containsSub m t = true → containsSub m (truncAfter m t) = true := by
  intro t
  induction t with
  | nil => intro h; exact h
  | cons c rest ih =>
    intro h
    by_cases hs : startsWithSub m (c :: rest) = true
    · simp only [truncAfter, hs, if_true]
      exact containsSub_self m
    · have hrest : containsSub m rest = true := by
        simpa [containsSub, hs] using h
      simp only [truncAfter, hs, if_false, containsSub]
      simp [ih hrest]

theorem nonEmptyDeltas_cons (ev : StreamEvent) (evs : List StreamEvent) :
    nonEmptyDeltas (ev :: evs) =
      if ev.last_content_delta.isEmpty then nonEmptyDeltas evs
      else ev.last_content_delta :: nonEmptyDeltas evs := by
  by_cases h : ev.last_content_delta.isEmpty <;> simp [nonEmptyDeltas, deltasList, h]

theorem events_cons {σ : Type} (E : Engine σ) (s : σ) (t : Nat) (ts : List Nat) :
    events E s (t :: ts) = (E.process s t).2 :: events E (E.process s t).1 ts := rfl

theorem decoderAfter_cons {σ : Type} (E : Engine σ) (s : σ) (t : Nat) (ts : List Nat) :
    decoderAfter E s (t :: ts) = decoderAfter E (E.process s t).1 ts := rfl

theorem truncAfter_idem (m : Str) :
    ∀ t : Str, containsSub m t = true → truncAfter m (truncAfter m t) = truncAfter m t := by
  intro t
  induction t with
  | nil => intro _; simp [truncAfter]
  | cons c rest ih =>
    intro h
    by_cases hs : startsWithSub m (c :: rest) = true
    · simp only [truncAfter, hs, if_true]
      cases m with
      | nil => rfl
      | cons a as => simp [truncAfter, startsWithSub_self]
    · have hrest : containsSub m rest = true := by
        simpa [containsSub, hs] using h
      simp only [truncAfter, hs, if_false]
      obtain ⟨k, hk⟩ := truncAfter_eq_take m rest
      have hs2 : ¬ startsWithSub m (c :: truncAfter m rest) = true := by
        intro hcon
        apply hs
        have : c :: truncAfter m rest = (c :: rest).take (k + 1) := by
          simp [List.take, hk]
        rw [this] at hcon
        exact startsWithSub_of_take m (k + 1) (c :: rest) hcon
      simp only [truncAfter, hs2, if_false]
      rw [ih hrest]

/-! ## Lemmas about one iteration of the token loop -/

theorem processToken_decoder {σ : Type} (E : Engine σ) (acc : ChunkAcc σ) (t : Nat) :
    (processToken E acc t).ps.parser = (E.process acc.ps.parser t).1 := by
  simp only [processToken]
  repeat' split
  all_goals simp

theorem processToken_state_or {σ : Type} (E : Engine σ) (acc : ChunkAcc σ) (t : Nat) :
    (processToken E acc t).ps.state = acc.ps.state ∨
      (processToken E acc t).ps.state = ToolParserState.FOUND_ARGUMENTS := by
  simp only [processToken]
  repeat' split
  all_goals simp

theorem processToken_of_found {σ : Type} (E : Engine σ) (acc : ChunkAcc σ) (t : Nat)
    (h : acc.ps.state = ToolParserState.FOUND_ARGUMENTS) :
    processToken E acc t =
      { acc with ps := { acc.ps with
          parser := (E.process acc.ps.parser t).1
          arguments_buffer :=
            if (E.process acc.ps.parser t).2.last_content_delta.isEmpty then
              acc.ps.arguments_buffer
            else
              acc.ps.arguments_buffer ++ [(E.process acc.ps.parser t).2.last_content_delta] } } := by
  by_cases h1 : (E.process acc.ps.parser t).2.last_content_delta.isEmpty = true <;>
    simp [processToken, h, h1]

theorem processToken_of_normal_nontool {σ : Type} (E : Engine σ) (acc : ChunkAcc σ) (t : Nat)
    (h : acc.ps.state = ToolParserState.NORMAL)
    (hnt : ¬(E.process acc.ps.parser t).2.last_content_delta.isEmpty = true →
      eventIsToolCall (E.process acc.ps.parser t).2 = false) :
    (processToken E acc t).ps = { acc.ps with parser := (E.process acc.ps.parser t).1 } := by
  simp only [processToken]
  repeat' split
  all_goals simp_all [eventIsToolCall]

theorem processToken_stateInv {σ : Type} (E : Engine σ) (acc : ChunkAcc σ) (t : Nat)
    (h : StateInv acc.ps) : StateInv (processToken E acc t).ps := by
  simp only [StateInv] at h ⊢
  simp only [processToken]
  repeat' split
  all_goals simp_all

theorem processToken_locals {σ : Type} (E : Engine σ) (acc : ChunkAcc σ) (t : Nat) :
    ∃ r c : List Str,
      (processToken E acc t).reasoning_contents = acc.reasoning_contents ++ r ∧
      (processToken E acc t).contents = acc.contents ++ c ∧
      List.Sublist r [(E.process acc.ps.parser t).2.last_content_delta] ∧
      List.Sublist c [(E.process acc.ps.parser t).2.last_content_delta] := by
  simp only [processToken]
  repeat' split
  all_goals first
    | exact ⟨[], [], (List.append_nil _).symm, (List.append_nil _).symm,
        List.nil_sublist _, List.nil_sublist _⟩
    | exact ⟨[(E.process acc.ps.parser t).2.last_content_delta], [], rfl,
        (List.append_nil _).symm, List.Sublist.refl _, List.nil_sublist _⟩
    | exact ⟨[], [(E.process acc.ps.parser t).2.last_content_delta],
        (List.append_nil _).symm, rfl, List.nil_sublist _, List.Sublist.refl _⟩

theorem foldl_decoder {σ : Type} (E : Engine σ) :
    ∀ (toks : List Nat) (acc : ChunkAcc σ),
      (toks.foldl (processToken E) acc).ps.parser = decoderAfter E acc.ps.parser toks := by
  intro toks
  induction toks with
  | nil => intro acc; rfl
  | cons t ts ih =>
    intro acc
    rw [List.foldl_cons, ih, decoderAfter_cons, processToken_decoder]

theorem foldl_state_not_end {σ : Type} (E : Engine σ) :
    ∀ (toks : List Nat) (acc : ChunkAcc σ),
      acc.ps.state ≠ ToolParserState.END_STREAM →
      (toks.foldl (processToken E) acc).ps.state ≠ ToolParserState.END_STREAM := by
  intro toks
  induction toks with
  | nil => intro acc h; exact h
  | cons t ts ih =>
    intro acc h
    rw [List.foldl_cons]
    refine ih _ ?_
    rcases processToken_state_or E acc t with h1 | h1 <;> rw [h1]
    · exact h
    · simp

theorem foldl_stateInv {σ : Type} (E : Engine σ) :
    ∀ (toks : List Nat) (acc : ChunkAcc σ),
      StateInv acc.ps → StateInv (toks.foldl (processToken E) acc).ps := by
  intro toks
  induction toks with
  | nil => intro acc h; exact h
  | cons t ts ih =>
    intro acc h
    rw [List.foldl_cons]
    exact ih _ (processToken_stateInv E acc t h)

theorem foldl_nontool {σ : Type} (E : Engine σ) :
    ∀ (toks : List Nat) (acc : ChunkAcc σ),
      acc.ps.state = ToolParserState.NORMAL →
      (∀ ev ∈ events E acc.ps.parser toks,
        ¬ev.last_content_delta.isEmpty = true → eventIsToolCall ev = false) →
      (toks.foldl (processToken E) acc).ps.state = ToolParserState.NORMAL ∧
      (toks.foldl (processToken E) acc).ps.arguments_buffer = acc.ps.arguments_buffer ∧
      (toks.foldl (processToken E) acc).ps.function_name_buffer =
        acc.ps.function_name_buffer := by
  intro toks
  induction toks with
  | nil => intro acc h _; exact ⟨h, rfl, rfl⟩
  | cons t ts ih =>
    intro acc h hev
    have hhead := hev (E.process acc.ps.parser t).2
      (by rw [events_cons]; exact List.mem_cons_self _ _)
    have hps := processToken_of_normal_nontool E acc t h hhead
    have hst : (processToken E acc t).ps.state = ToolParserState.NORMAL := by simp [hps, h]
    have ha : (processToken E acc t).ps.arguments_buffer = acc.ps.arguments_buffer := by
      simp [hps]
    have hn : (processToken E acc t).ps.function_name_buffer = acc.ps.function_name_buffer := by
      simp [hps]
    have hstep := ih (processToken E acc t) hst
      (by
        intro ev hm
        refine hev ev ?_
        rw [events_cons]
        refine List.mem_cons_of_mem _ ?_
        rw [processToken_decoder] at hm
        exact hm)
    rw [List.foldl_cons]
    exact ⟨hstep.1, hstep.2.1.trans ha, hstep.2.2.trans hn⟩

theorem foldl_locals {σ : Type} (E : Engine σ) :
    ∀ (toks : List Nat) (acc : ChunkAcc σ),
      ∃ r c : List Str,
        (toks.foldl (processToken E) acc).reasoning_contents =
          acc.reasoning_contents ++ r ∧
        (toks.foldl (processToken E) acc).contents = acc.contents ++ c ∧
        List.Sublist r (deltasList (events E acc.ps.parser toks)) ∧
        List.Sublist c (deltasList (events E acc.ps.parser toks)) := by
  intro toks
  induction toks with
  | nil =>
    intro acc
    exact ⟨[], [], by simp, by simp, List.nil_sublist _, List.nil_sublist _⟩
  | cons t ts ih =>
    intro acc
    obtain ⟨r0, c0, hr0, hc0, hsr0, hsc0⟩ := processToken_locals E acc t
    obtain ⟨r1, c1, hr1, hc1, hsr1, hsc1⟩ := ih (processToken E acc t)
    rw [processToken_decoder] at hsr1 hsc1
    refine ⟨r0 ++ r1, c0 ++ c1, ?_, ?_, ?_, ?_⟩
    · rw [List.foldl_cons, hr1, hr0, List.append_assoc]
    · rw [List.foldl_cons, hc1, hc0, List.append_assoc]
    · rw [events_cons]
      simpa [deltasList] using List.Sublist.append hsr0 hsr1
    · rw [events_cons]
      simpa [deltasList] using List.Sublist.append hsc0 hsc1

theorem foldl_found {σ : Type} (E : Engine σ) :
    ∀ (toks : List Nat) (acc : ChunkAcc σ),
      acc.ps.state = ToolParserState.FOUND_ARGUMENTS →
      toks.foldl (processToken E) acc =
        { ps := { parser := decoderAfter E acc.ps.parser toks
                  state := ToolParserState.FOUND_ARGUMENTS
                  arguments_buffer :=
                    acc.ps.arguments_buffer ++ nonEmptyDeltas (events E acc.ps.parser toks)
                  function_name_buffer := acc.ps.function_name_buffer }
          reasoning_contents := acc.reasoning_contents
          contents := acc.contents } := by
  intro toks
  induction toks with
  | nil =>
    intro acc h
    obtain ⟨⟨p, st, ab, fb⟩, rs, cs⟩ := acc
    simp only at h
    subst h
    simp [events, decoderAfter, nonEmptyDeltas, deltasList]
  | cons t ts ih =>
    intro acc h
    rw [List.foldl_cons, processToken_of_found E acc t h]
    rw [ih _ (by simp [h])]
    simp only [events_cons, decoderAfter_cons, nonEmptyDeltas_cons]
    by_cases h1 : (E.process acc.ps.parser t).2.last_content_delta.isEmpty = true <;>
      simp [h1, List.append_assoc]

/-! ## Unfolding lemmas for the streaming interface -/

theorem parse_streaming_of_end {σ : Type} (E : Engine σ) (ps : HarmonyParser σ) (c : Str)
    (h : ps.state = ToolParserState.END_STREAM) :
    ps.parse_streaming E c = (ps, (none, true)) := by
  simp [HarmonyParser.parse_streaming, h]

theorem parse_streaming_no_marker {σ : Type} (E : Engine σ) (ps : HarmonyParser σ) (c : Str)
    (h1 : ps.state ≠ ToolParserState.END_STREAM)
    (h2 : containsSub end_tool_chunk c = false) :
    ps.parse_streaming E c =
      ((chunkFold E ps c).ps,
       (some (build_result (chunkFold E ps c).reasoning_contents none
          (chunkFold E ps c).contents), false)) := by
  simp [HarmonyParser.parse_streaming, h1, h2, chunkFold]

theorem parse_streaming_marker {σ : Type} (E : Engine σ) (ps : HarmonyParser σ) (c : Str)
    (h1 : ps.state ≠ ToolParserState.END_STREAM)
    (h2 : containsSub end_tool_chunk c = true) :
    ps.parse_streaming E c =
      ({ (chunkFold E ps (truncAfter end_tool_chunk c)).ps with
          arguments_buffer := []
          function_name_buffer := []
          state := ToolParserState.END_STREAM },
       (some (build_result (chunkFold E ps (truncAfter end_tool_chunk c)).reasoning_contents
          (some [{ name := (chunkFold E ps (truncAfter end_tool_chunk c)).ps.function_name_buffer
                   arguments :=
                     (chunkFold E ps (truncAfter end_tool_chunk c)).ps.arguments_buffer.flatten }])
          (chunkFold E ps (truncAfter end_tool_chunk c)).contents), true)) := by
  simp [HarmonyParser.parse_streaming, h1, h2, chunkFold]

theorem parse_streaming_state_end_iff {σ : Type} (E : Engine σ) (ps : HarmonyParser σ)
    (c : Str) (h1 : ps.state ≠ ToolParserState.END_STREAM) :
    (ps.parse_streaming E c).1.state = ToolParserState.END_STREAM ↔
      containsSub end_tool_chunk c = true := by
  by_cases hm : containsSub end_tool_chunk c = true
  · rw [parse_streaming_marker E ps c h1 hm]
    simpa using hm
  · rw [parse_streaming_no_marker E ps c h1 (by simpa using hm)]
    simp only [chunkFold]
    have hne := foldl_state_not_end E (E.encode c) (ChunkAcc.mk ps [] []) h1
    constructor
    · intro hcon
      exact absurd hcon hne
    · intro hcon
      exact absurd hcon hm

/-! ## Session lemmas -/

theorem runChunks_cons {σ : Type} (E : Engine σ) (ps : HarmonyParser σ) (c : Str)
    (cs : List Str) :
    runChunks E ps (c :: cs) =
      ((runChunks E (ps.parse_streaming E c).1 cs).1,
       (ps.parse_streaming E c).2 :: (runChunks E (ps.parse_streaming E c).1 cs).2) := rfl

theorem runChunks_of_end {σ : Type} (E : Engine σ) :
    ∀ (cs : List Str) (ps : HarmonyParser σ),
      ps.state = ToolParserState.END_STREAM →
      runChunks E ps cs = (ps, cs.map fun _ => (none, true)) := by
  intro cs
  induction cs with
  | nil => intro ps _; rfl
  | cons c rest ih =>
    intro ps h
    rw [runChunks_cons, parse_streaming_of_end E ps c h, ih ps h]
    simp

theorem runChunks_length {σ : Type} (E : Engine σ) :
    ∀ (cs : List Str) (ps : HarmonyParser σ),
      (runChunks E ps cs).2.length = cs.length := by
  intro cs
  induction cs with
  | nil => intro ps; rfl
  | cons c rest ih =>
    intro ps
    rw [runChunks_cons]
    simp [ih]

theorem runChunks_pattern {σ : Type} (E : Engine σ) :
    ∀ (cs : List Str) (ps : HarmonyParser σ),
      ps.state ≠ ToolParserState.END_STREAM →
      (runChunks E ps cs).2.map emitLen = emissionPattern cs := by
  intro cs
  induction cs with
  | nil => intro ps _; rfl
  | cons c rest ih =>
    intro ps h
    by_cases hm : containsSub end_tool_chunk c = true
    · rw [runChunks_cons, parse_streaming_marker E ps c h hm]
      have hend : ({ (chunkFold E ps (truncAfter end_tool_chunk c)).ps with
          arguments_buffer := ([] : List Str)
          function_name_buffer := ([] : Str)
          state := ToolParserState.END_STREAM } : HarmonyParser σ).state =
            ToolParserState.END_STREAM := rfl
      rw [runChunks_of_end E rest _ hend]
      simp [emissionPattern, hm, emitLen, build_result]
    · rw [runChunks_cons, parse_streaming_no_marker E ps c h (by simpa using hm)]
      have hne : (chunkFold E ps c).ps.state ≠ ToolParserState.END_STREAM := by
        simp only [chunkFold]
        exact foldl_state_not_end E (E.encode c) (ChunkAcc.mk ps [] []) h
      rw [List.map_cons, ih _ hne]
      simp [emissionPattern, hm, emitLen, build_result]

theorem emissionPattern_length : ∀ cs : List Str, (emissionPattern cs).length = cs.length := by
  intro cs
  induction cs with
  | nil => rfl
  | cons c rest ih =>
    by_cases hm : containsSub end_tool_chunk c = true <;> simp [emissionPattern, hm, ih]

theorem emissionPattern_sum : ∀ cs : List Str, (emissionPattern cs).sum ≤ 1 := by
  intro cs
  induction cs with
  | nil => simp [emissionPattern]
  | cons c rest ih =>
    by_cases hm : containsSub end_tool_chunk c = true
    · have hz : ((rest.map fun _ => (0 : Nat)).sum = 0) := by simp
      simp [emissionPattern, hm, hz]
    · simp [emissionPattern, hm, ih]

theorem firstMarkerIdx_cons_zero (c : Str) (rest : List Str)
    (hm : containsSub end_tool_chunk c = false) :
    firstMarkerIdx (c :: rest) ≠ some 0 := by
  simp only [firstMarkerIdx, hm, Bool.false_eq_true, if_false]
  intro hcon
  obtain ⟨j, _, hj2⟩ := Option.map_eq_some'.mp hcon
  omega

theorem firstMarkerIdx_cons_succ (c : Str) (rest : List Str)
    (hm : containsSub end_tool_chunk c = false) (j : Nat) :
    firstMarkerIdx (c :: rest) = some (j + 1) ↔ firstMarkerIdx rest = some j := by
  simp only [firstMarkerIdx, hm, Bool.false_eq_true, if_false]
  constructor
  · intro hcon
    obtain ⟨k, hk1, hk2⟩ := Option.map_eq_some'.mp hcon
    have hkj : k = j := by omega
    exact hkj ▸ hk1
  · intro hf
    rw [hf]
    rfl

theorem emissionPattern_getElem :
    ∀ (cs : List Str) (i : Nat), i < cs.length →
      (emissionPattern cs)[i]? = some (if firstMarkerIdx cs = some i then 1 else 0) := by
  intro cs
  induction cs with
  | nil => intro i h; simp at h
  | cons c rest ih =>
    intro i h
    by_cases hm : containsSub end_tool_chunk c = true
    · have hpat : emissionPattern (c :: rest) = 1 :: rest.map (fun _ => 0) := by
        simp [emissionPattern, hm]
      rw [hpat]
      cases i with
      | zero => simp [firstMarkerIdx, hm]
      | succ j =>
        have hj : j < rest.length := by simpa using h
        have hfm : firstMarkerIdx (c :: rest) = some 0 := by simp [firstMarkerIdx, hm]
        rw [List.getElem?_cons_succ, List.getElem?_map,
          List.getElem?_eq_getElem hj]
        simp [hfm]
    · have hm' : containsSub end_tool_chunk c = false := by simpa using hm
      have hpat : emissionPattern (c :: rest) = 0 :: emissionPattern rest := by
        simp [emissionPattern, hm']
      rw [hpat]
      cases i with
      | zero =>
        simp [firstMarkerIdx_cons_zero c rest hm']
      | succ j =>
        have hj : j < rest.length := by simpa using h
        rw [List.getElem?_cons_succ, ih j hj]
        by_cases hf : firstMarkerIdx rest = some j
        · rw [if_pos hf, if_pos ((firstMarkerIdx_cons_succ c rest hm' j).mpr hf)]
        · rw [if_neg hf, if_neg (fun hcon =>
            hf ((firstMarkerIdx_cons_succ c rest hm' j).mp hcon))]

/-! ## The reachable-state invariant -/

theorem stateInv_init {σ : Type} (s0 : σ) : StateInv (HarmonyParser.init s0) := by
  constructor <;> intro h <;> simp [HarmonyParser.init] at h ⊢

theorem parse_streaming_stateInv {σ : Type} (E : Engine σ) (ps : HarmonyParser σ) (c : Str)
    (h : StateInv ps) : StateInv (ps.parse_streaming E c).1 := by
  by_cases hend : ps.state = ToolParserState.END_STREAM
  · rw [parse_streaming_of_end E ps c hend]
    exact h
  · by_cases hm : containsSub end_tool_chunk c = true
    · rw [parse_streaming_marker E ps c hend hm]
      constructor <;> intro <;> exact ⟨rfl, rfl⟩
    · rw [parse_streaming_no_marker E ps c hend (by simpa using hm)]
      simp only [chunkFold]
      exact foldl_stateInv E (E.encode c) (ChunkAcc.mk ps [] []) h

theorem handle_stateInv {σ : Type} (E : Engine σ) (ps : HarmonyParser σ)
    (h : StateInv ps) : StateInv (ps.handle_parse_streaming_end E).1 := by
  by_cases hf : ps.state = ToolParserState.FOUND_ARGUMENTS
  · rw [HarmonyParser.handle_parse_streaming_end, if_pos hf]
    exact parse_streaming_stateInv E ps end_tool_chunk h
  · rw [HarmonyParser.handle_parse_streaming_end, if_neg hf]
    exact h

theorem reachable_stateInv {σ : Type} (E : Engine σ) (s0 : σ) (ps : HarmonyParser σ)
    (h : Reachable E s0 ps) : StateInv ps := by
  induction h with
  | init => exact stateInv_init s0
  | step ps' c _ ih => exact parse_streaming_stateInv E ps' c ih
  | flush ps' _ ih => exact handle_stateInv E ps' ih

/-! ## Claims -/

/-- Claim C3: once a parser instance has reached the terminal `END_STREAM`
(`Finished`) state, every subsequent `parse_streaming` call — for any
sequence of further chunks — returns `(none, true)` and leaves the entire
parser state (mode, `arguments_buffer`, `function_name_buffer`, decoder
state) unchanged, repeatably. -/
theorem claim_C3 {σ : Type} (E : Engine σ) (ps : HarmonyParser σ)
    (h : ps.state = ToolParserState.END_STREAM) (chunks : List Str) :
    runChunks E ps chunks = (ps, chunks.map fun _ => (none, true)) :=
  runChunks_of_end E chunks ps h

theorem claim_C3_witness :
    ({ parser := [], state := ToolParserState.END_STREAM, arguments_buffer := []
       function_name_buffer := [] } : HarmonyParser (List StreamEvent)).state =
      ToolParserState.END_STREAM ∧
    runChunks engNone
      { parser := [], state := ToolParserState.END_STREAM, arguments_buffer := []
        function_name_buffer := [] } chunksW =
      ({ parser := [], state := ToolParserState.END_STREAM, arguments_buffer := []
         function_name_buffer := [] }, [(none, true), (none, true)]) :=
  ⟨rfl, claim_C3 engNone _ rfl chunksW⟩

/-- Claim C10: the one-shot `parse` performs no write to the streaming state
fields: after any `parse` call, `state` (mode), `arguments_buffer` and
`function_name_buffer` are unchanged (as is the decoder state), so a
one-shot parse does not perturb an in-flight stream. -/
theorem claim_C10 {σ : Type} (E : Engine σ) (ps : HarmonyParser σ) (text : Str) :
    (ps.parse E text).1.state = ps.state ∧
    (ps.parse E text).1.arguments_buffer = ps.arguments_buffer ∧
    (ps.parse E text).1.function_name_buffer = ps.function_name_buffer ∧
    (ps.parse E text).1 = ps :=
  ⟨rfl, rfl, rfl, rfl⟩

/-- Claim C7: `handle_parse_streaming_end` with `mode = FOUND_ARGUMENTS`
returns exactly what feeding the end marker through `parse_streaming`
returns — finalizing `mode = END_STREAM`, clearing both buffers, emitting
one synthesized tool call, completion flag true; in any other state it
returns `(none, false)` and changes no state. -/
theorem claim_C7 {σ : Type} (E : Engine σ) (ps : HarmonyParser σ) :
    (ps.state = ToolParserState.FOUND_ARGUMENTS →
      ps.handle_parse_streaming_end E = ps.parse_streaming E end_tool_chunk ∧
      (ps.handle_parse_streaming_end E).1.state = ToolParserState.END_STREAM ∧
      (ps.handle_parse_streaming_end E).1.arguments_buffer = [] ∧
      (ps.handle_parse_streaming_end E).1.function_name_buffer = [] ∧
      (ps.handle_parse_streaming_end E).2.2 = true ∧
      ∃ r tc, (ps.handle_parse_streaming_end E).2.1 = some r ∧ r.tool_calls = some [tc]) ∧
    (ps.state ≠ ToolParserState.FOUND_ARGUMENTS →
      ps.handle_parse_streaming_end E = (ps, (none, false))) := by
  constructor
  · intro h
    have heq : ps.handle_parse_streaming_end E = ps.parse_streaming E end_tool_chunk := by
      rw [HarmonyParser.handle_parse_streaming_end, if_pos h]
    have hne : ps.state ≠ ToolParserState.END_STREAM := by rw [h]; simp
    have hmk := parse_streaming_marker E ps end_tool_chunk hne (containsSub_self end_tool_chunk)
    refine ⟨heq, ?_, ?_, ?_, ?_, ?_⟩
    · rw [heq, hmk]
    · rw [heq, hmk]
    · rw [heq, hmk]
    · rw [heq, hmk]
    · rw [heq, hmk]
      exact ⟨_, _, rfl, rfl⟩
  · intro h
    rw [HarmonyParser.handle_parse_streaming_end, if_neg h]

theorem claim_C7_witness :
    psFound.state = ToolParserState.FOUND_ARGUMENTS ∧
    psFound.handle_parse_streaming_end engNone =
      psFound.parse_streaming engNone end_tool_chunk ∧
    (psFound.handle_parse_streaming_end engNone).1.state = ToolParserState.END_STREAM ∧
    (psFound.handle_parse_streaming_end engNone).1.arguments_buffer = [] ∧
    (psFound.handle_parse_streaming_end engNone).1.function_name_buffer = [] ∧
    (psFound.handle_parse_streaming_end engNone).2.2 = true ∧
    ∃ r tc, (psFound.handle_parse_streaming_end engNone).2.1 = some r ∧
      r.tool_calls = some [tc] := by
  have h := (claim_C7 engNone psFound).1 rfl
  exact ⟨rfl, h.1, h.2.1, h.2.2.1, h.2.2.2.1, h.2.2.2.2.1, h.2.2.2.2.2⟩

/-- Claim C2: for any chunk/text containing the end-of-call marker, both
`parse` and `parse_streaming` produce exactly the state and result they
would produce on the prefix ending immediately after the marker's first
occurrence (`specTruncate`, written from the spec's words), so content
after the marker is never classified, buffered, or reflected anywhere. -/
theorem claim_C2 {σ : Type} (E : Engine σ) (ps : HarmonyParser σ) (c : Str)
    (h : containsSub end_tool_chunk c = true) :
    ps.parse_streaming E c = ps.parse_streaming E (specTruncate end_tool_chunk c) ∧
    ps.parse E c = ps.parse E (specTruncate end_tool_chunk c) := by
  have hspec : specTruncate end_tool_chunk c = truncAfter end_tool_chunk c :=
    (truncAfter_eq_specTruncate end_tool_chunk c h).symm
  have hc' : containsSub end_tool_chunk (truncAfter end_tool_chunk c) = true :=
    containsSub_truncAfter end_tool_chunk c h
  have hidem : truncAfter end_tool_chunk (truncAfter end_tool_chunk c) =
      truncAfter end_tool_chunk c :=
    truncAfter_idem end_tool_chunk c h
  rw [hspec]
  constructor
  · by_cases hend : ps.state = ToolParserState.END_STREAM
    · rw [parse_streaming_of_end E ps _ hend, parse_streaming_of_end E ps _ hend]
    · rw [parse_streaming_marker E ps c hend h,
        parse_streaming_marker E ps _ hend hc', hidem]
  · simp only [HarmonyParser.parse, h, hc', if_true, hidem]

theorem claim_C2_witness :
    containsSub end_tool_chunk "ab<|call|>cd".toList = true ∧
    ((HarmonyParser.init ([] : List StreamEvent)).parse_streaming engNone
        "ab<|call|>cd".toList =
      (HarmonyParser.init []).parse_streaming engNone
        (specTruncate end_tool_chunk "ab<|call|>cd".toList) ∧
    (HarmonyParser.init ([] : List StreamEvent)).parse engNone "ab<|call|>cd".toList =
      (HarmonyParser.init []).parse engNone
        (specTruncate end_tool_chunk "ab<|call|>cd".toList)) :=
  ⟨by decide, claim_C2 engNone (HarmonyParser.init []) "ab<|call|>cd".toList (by decide)⟩

/-- Claim C6 as stated is false: a commentary-channel delta with an absent
recipient drives a reachable parser into `FOUND_ARGUMENTS`
(`CapturingArguments`) with an empty `function_name_buffer`, refuting
"pending_function_name is non-empty if and only if mode ==
CapturingArguments". -/
theorem claim_C6_counterexample :
    Reachable engNone [commEvent]
      ((HarmonyParser.init [commEvent]).parse_streaming engNone "a".toList).1 ∧
    ((HarmonyParser.init [commEvent]).parse_streaming engNone "a".toList).1.state =
      ToolParserState.FOUND_ARGUMENTS ∧
    ((HarmonyParser.init [commEvent]).parse_streaming engNone "a".toList).1.function_name_buffer
      = [] :=
  ⟨Reachable.step _ _ Reachable.init, by decide, by decide⟩

/-- Claim C6 (amended): for every reachable parser state, if
`function_name_buffer` is non-empty then `mode = FOUND_ARGUMENTS` (the
converse can fail, since a recipient-less commentary delta enters
`FOUND_ARGUMENTS` with an empty name), and in `NORMAL` mode both
`arguments_buffer` and `function_name_buffer` are empty. -/
theorem claim_C6 {σ : Type} (E : Engine σ) (s0 : σ) (ps : HarmonyParser σ)
    (h : Reachable E s0 ps) :
    (ps.function_name_buffer ≠ [] → ps.state = ToolParserState.FOUND_ARGUMENTS) ∧
    (ps.state = ToolParserState.NORMAL →
      ps.arguments_buffer = [] ∧ ps.function_name_buffer = []) := by
  have hi := reachable_stateInv E s0 ps h
  refine ⟨?_, hi.1⟩
  intro hn
  cases hst : ps.state with
  | NORMAL => exact absurd (hi.1 hst).2 hn
  | FOUND_ARGUMENTS => rfl
  | END_STREAM => exact absurd (hi.2 hst).2 hn

theorem claim_C6_witness :
    ((HarmonyParser.init ([] : List StreamEvent)).function_name_buffer ≠ [] →
      (HarmonyParser.init ([] : List StreamEvent)).state =
        ToolParserState.FOUND_ARGUMENTS) ∧
    ((HarmonyParser.init ([] : List StreamEvent)).state = ToolParserState.NORMAL →
      (HarmonyParser.init ([] : List StreamEvent)).arguments_buffer = [] ∧
      (HarmonyParser.init ([] : List StreamEvent)).function_name_buffer = []) :=
  claim_C6 engNone [] (HarmonyParser.init []) Reachable.init

theorem parse_fold_tool_calls :
    ∀ (msgs : List Message) (r : OneShotResult),
      (msgs.foldl parseMessageStep r).tool_calls =
        r.tool_calls ++
          (msgs.filter (fun m =>
            isToolCallCheck m.channel (m.recipient.getD []) &&
              !(m.recipient.getD []).isEmpty)).map
            (fun m =>
              { name := replaceSub functionsMarker [] (m.recipient.getD [])
                arguments := m.content.headD [] }) := by
  intro msgs
  induction msgs with
  | nil => intro r; simp
  | cons m rest ih =>
    intro r
    rw [List.foldl_cons, ih]
    by_cases hc : (isToolCallCheck m.channel (m.recipient.getD []) &&
        !(m.recipient.getD []).isEmpty) = true
    · have hstep : (parseMessageStep r m).tool_calls = r.tool_calls ++
          [{ name := replaceSub functionsMarker [] (m.recipient.getD [])
             arguments := m.content.headD [] }] := by
        simp only [parseMessageStep]
        repeat' split
        all_goals simp_all
      rw [hstep]
      simp [List.filter_cons, hc, List.append_assoc]
    · have hstep : (parseMessageStep r m).tool_calls = r.tool_calls := by
        simp only [parseMessageStep]
        repeat' split
        all_goals simp_all
      rw [hstep]
      simp [List.filter_cons, hc]

/-- Claim C5 as stated is false: a decoded commentary-channel message whose
recipient is absent is classified as a tool call by the shared check but
contributes no `tool_calls` entry — `parse` appends only when the
recipient is non-empty, so the message is dropped entirely. -/
theorem claim_C5_counterexample :
    isToolCallCheck msgCommentaryNoRecipient.channel
      (msgCommentaryNoRecipient.recipient.getD []) = true ∧
    ((HarmonyParser.init ([] : List StreamEvent)).parse engCommMsg "t".toList).2.tool_calls
      = [] :=
  ⟨by decide, by decide⟩

/-- Claim C5 (amended): in one-shot `parse`, the `tool_calls` sequence
consists of exactly the decoded messages that are classified as tool
calls AND have a non-empty recipient, in order, each contributing one
entry whose name is the recipient with every occurrence of the
`"functions."` marker removed and whose arguments are the first content
block's text; commentary-channel messages with absent or empty recipient
are classified as tool calls but are dropped. -/
theorem claim_C5 {σ : Type} (E : Engine σ) (ps : HarmonyParser σ) (text : Str) :
    ((ps.parse E text).2).tool_calls =
      ((E.parse_messages_from_completion_tokens (E.encode
          (if containsSub end_tool_chunk text then truncAfter end_tool_chunk text
           else text))).filter
        (fun m => isToolCallCheck m.channel (m.recipient.getD []) &&
          !(m.recipient.getD []).isEmpty)).map
        (fun m =>
          { name := replaceSub functionsMarker [] (m.recipient.getD [])
            arguments := m.content.headD [] }) := by
  simp only [HarmonyParser.parse]
  rw [parse_fold_tool_calls]
  simp [initOneShot]

/-- Claim C4: during a `parse_streaming` call entered in `FOUND_ARGUMENTS`
(`CapturingArguments`) mode, every non-empty decoder delta of the
(possibly truncated) chunk is appended to `arguments_buffer` regardless
of its channel or recipient, and the call's `content` and
`reasoning_content` fields receive nothing; with the end marker present
the buffered deltas are flushed into the single emitted tool call. -/
theorem claim_C4 {σ : Type} (E : Engine σ) (ps : HarmonyParser σ) (c : Str)
    (h : ps.state = ToolParserState.FOUND_ARGUMENTS) :
    (containsSub end_tool_chunk c = false →
      ps.parse_streaming E c =
        ({ ps with
            parser := decoderAfter E ps.parser (E.encode c)
            arguments_buffer :=
              ps.arguments_buffer ++ nonEmptyDeltas (events E ps.parser (E.encode c)) },
         (some (build_result [] none []), false))) ∧
    (containsSub end_tool_chunk c = true →
      ps.parse_streaming E c =
        ({ ps with
            parser := decoderAfter E ps.parser (E.encode (truncAfter end_tool_chunk c))
            arguments_buffer := []
            function_name_buffer := []
            state := ToolParserState.END_STREAM },
         (some (build_result []
            (some [{ name := ps.function_name_buffer
                     arguments := (ps.arguments_buffer ++
                       nonEmptyDeltas (events E ps.parser
                         (E.encode (truncAfter end_tool_chunk c)))).flatten }])
            []), true))) := by
  have hne : ps.state ≠ ToolParserState.END_STREAM := by rw [h]; simp
  constructor
  · intro hm
    have hfold : chunkFold E ps c =
        { ps := { parser := decoderAfter E ps.parser (E.encode c)
                  state := ToolParserState.FOUND_ARGUMENTS
                  arguments_buffer :=
                    ps.arguments_buffer ++ nonEmptyDeltas (events E ps.parser (E.encode c))
                  function_name_buffer := ps.function_name_buffer }
          reasoning_contents := []
          contents := [] } := by
      simpa [chunkFold] using foldl_found E (E.encode c) (ChunkAcc.mk ps [] []) h
    rw [parse_streaming_no_marker E ps c hne hm, hfold]
    obtain ⟨p, st, ab, fb⟩ := ps
    simp only at h
    subst h
    rfl
  · intro hm
    have hfold : chunkFold E ps (truncAfter end_tool_chunk c) =
        { ps := { parser := decoderAfter E ps.parser (E.encode (truncAfter end_tool_chunk c))
                  state := ToolParserState.FOUND_ARGUMENTS
                  arguments_buffer :=
                    ps.arguments_buffer ++ nonEmptyDeltas (events E ps.parser
                      (E.encode (truncAfter end_tool_chunk c)))
                  function_name_buffer := ps.function_name_buffer }
          reasoning_contents := []
          contents := [] } := by
      simpa [chunkFold] using
        foldl_found E (E.encode (truncAfter end_tool_chunk c)) (ChunkAcc.mk ps [] []) h
    rw [parse_streaming_marker E ps c hne hm, hfold]

theorem claim_C4_witness :
    psFound.state = ToolParserState.FOUND_ARGUMENTS ∧
    containsSub end_tool_chunk "ab".toList = false ∧
    psFound.parse_streaming engNone "ab".toList =
      ({ psFound with
          parser := decoderAfter engNone psFound.parser (engNone.encode "ab".toList)
          arguments_buffer := psFound.arguments_buffer ++
            nonEmptyDeltas (events engNone psFound.parser (engNone.encode "ab".toList)) },
       (some (build_result [] none []), false)) :=
  ⟨rfl, by decide, (claim_C4 engNone psFound "ab".toList rfl).1 (by decide)⟩

/-- Claim C8: a `parse_streaming` call on a non-finished parser whose chunk
has no end marker returns completion flag false and a present result with
`tool_calls = none` (not an empty list); its `content` and
`reasoning_content` are built exclusively from deltas decoded during this
call (and are `none` when no matching delta occurred). -/
theorem claim_C8 {σ : Type} (E : Engine σ) (ps : HarmonyParser σ) (c : Str)
    (h1 : ps.state ≠ ToolParserState.END_STREAM)
    (h2 : containsSub end_tool_chunk c = false) :
    ∃ rs cs : List Str,
      List.Sublist rs (deltasList (events E ps.parser (E.encode c))) ∧
      List.Sublist cs (deltasList (events E ps.parser (E.encode c))) ∧
      (ps.parse_streaming E c).2 = (some (build_result rs none cs), false) ∧
      (build_result rs none cs).tool_calls = none ∧
      (rs = [] → (build_result rs none cs).reasoning_content = none) ∧
      (cs = [] → (build_result rs none cs).content = none) := by
  obtain ⟨rs, cs, hr, hc, hsr, hsc⟩ := foldl_locals E (E.encode c) (ChunkAcc.mk ps [] [])
  simp only [List.nil_append] at hr hc
  refine ⟨rs, cs, by simpa using hsr, by simpa using hsc, ?_, rfl, ?_, ?_⟩
  · rw [parse_streaming_no_marker E ps c h1 h2]
    simp only [chunkFold, hr, hc]
  · intro hrs
    simp [build_result, joinOrNone, hrs]
  · intro hcs
    simp [build_result, joinOrNone, hcs]

theorem claim_C8_witness :
    psAF.state ≠ ToolParserState.END_STREAM ∧
    containsSub end_tool_chunk "ab".toList = false ∧
    ∃ rs cs : List Str,
      List.Sublist rs (deltasList (events engNone psAF.parser (engNone.encode "ab".toList))) ∧
      List.Sublist cs (deltasList (events engNone psAF.parser (engNone.encode "ab".toList))) ∧
      (psAF.parse_streaming engNone "ab".toList).2 =
        (some (build_result rs none cs), false) ∧
      (build_result rs none cs).tool_calls = none ∧
      (rs = [] → (build_result rs none cs).reasoning_content = none) ∧
      (cs = [] → (build_result rs none cs).content = none) :=
  ⟨by decide, by decide, claim_C8 engNone psAF "ab".toList (by decide) (by decide)⟩

/-- Claim C9: feeding a marker-bearing chunk to a reachable parser in
`NORMAL` mode, when no delta of this call is classified as a tool call,
still terminates the stream: completion flag true, `mode = END_STREAM`,
and `tool_calls` holding exactly one entry whose name and arguments are
both empty strings. -/
theorem claim_C9 {σ : Type} (E : Engine σ) (s0 : σ) (ps : HarmonyParser σ)
    (hr : Reachable E s0 ps) (h : ps.state = ToolParserState.NORMAL) (c : Str)
    (hm : containsSub end_tool_chunk c = true)
    (hev : ∀ ev ∈ events E ps.parser (E.encode (truncAfter end_tool_chunk c)),
      ¬ev.last_content_delta.isEmpty = true → eventIsToolCall ev = false) :
    (ps.parse_streaming E c).1.state = ToolParserState.END_STREAM ∧
    (ps.parse_streaming E c).2.2 = true ∧
    ∃ r, (ps.parse_streaming E c).2.1 = some r ∧
      r.tool_calls = some [{ name := [], arguments := [] }] := by
  have hne : ps.state ≠ ToolParserState.END_STREAM := by rw [h]; simp
  have hbuf := (reachable_stateInv E s0 ps hr).1 h
  have hfold := foldl_nontool E (E.encode (truncAfter end_tool_chunk c))
    (ChunkAcc.mk ps [] []) h hev
  rw [parse_streaming_marker E ps c hne hm]
  refine ⟨rfl, rfl, ⟨_, rfl, ?_⟩⟩
  have hname : (chunkFold E ps (truncAfter end_tool_chunk c)).ps.function_name_buffer = [] := by
    simp only [chunkFold]
    rw [hfold.2.2]
    exact hbuf.2
  have hargs : (chunkFold E ps (truncAfter end_tool_chunk c)).ps.arguments_buffer = [] := by
    simp only [chunkFold]
    rw [hfold.2.1]
    exact hbuf.1
  simp [build_result, hname, hargs]

theorem claim_C9_witness :
    Reachable engNone [] (HarmonyParser.init ([] : List StreamEvent)) ∧
    (HarmonyParser.init ([] : List StreamEvent)).state = ToolParserState.NORMAL ∧
    containsSub end_tool_chunk "<|call|>".toList = true ∧
    ((HarmonyParser.init ([] : List StreamEvent)).parse_streaming engNone
        "<|call|>".toList).1.state = ToolParserState.END_STREAM ∧
    ((HarmonyParser.init ([] : List StreamEvent)).parse_streaming engNone
        "<|call|>".toList).2.2 = true ∧
    ∃ r, ((HarmonyParser.init ([] : List StreamEvent)).parse_streaming engNone
        "<|call|>".toList).2.1 = some r ∧
      r.tool_calls = some [{ name := [], arguments := [] }] := by
  have h := claim_C9 engNone [] (HarmonyParser.init []) Reachable.init rfl
    "<|call|>".toList (by decide) (by decide)
  exact ⟨Reachable.init, rfl, by decide, h.1, h.2.1, h.2.2⟩

/-- Claim C1: over a whole streaming session from a fresh parser, the total
number of emitted tool-call entries is at most one; an entry is emitted
exactly at the first chunk containing the end marker (count 1 there, 0 at
every other call); and at any marker-detecting call the emission is the
single entry `{name := pending function name, arguments := joined
argument buffer}` (values after processing the truncated chunk), with
both buffers cleared, `mode = END_STREAM`, and completion flag true. -/
theorem claim_C1 {σ : Type} (E : Engine σ) (s0 : σ) (chunks : List Str) :
    ((runChunks E (HarmonyParser.init s0) chunks).2.map emitLen).sum ≤ 1 ∧
    (∀ i, i < chunks.length →
      ((runChunks E (HarmonyParser.init s0) chunks).2.map emitLen)[i]? =
        some (if firstMarkerIdx chunks = some i then 1 else 0)) ∧
    (∀ (ps : HarmonyParser σ) (c : Str),
      ps.state ≠ ToolParserState.END_STREAM →
      containsSub end_tool_chunk c = true →
      ps.parse_streaming E c =
        ({ (chunkFold E ps (truncAfter end_tool_chunk c)).ps with
            arguments_buffer := []
            function_name_buffer := []
            state := ToolParserState.END_STREAM },
         (some (build_result (chunkFold E ps (truncAfter end_tool_chunk c)).reasoning_contents
            (some [{ name := (chunkFold E ps (truncAfter end_tool_chunk c)).ps.function_name_buffer
                     arguments :=
                       (chunkFold E ps
                         (truncAfter end_tool_chunk c)).ps.arguments_buffer.flatten }])
            (chunkFold E ps (truncAfter end_tool_chunk c)).contents), true))) := by
  have hinit : (HarmonyParser.init s0).state ≠ ToolParserState.END_STREAM := by
    simp [HarmonyParser.init]
  have hpat := runChunks_pattern E chunks (HarmonyParser.init s0) hinit
  refine ⟨?_, ?_, ?_⟩
  · rw [hpat]
    exact emissionPattern_sum chunks
  · intro i hi
    rw [hpat]
    exact emissionPattern_getElem chunks i hi
  · intro ps c h1 h2
    exact parse_streaming_marker E ps c h1 h2

theorem claim_C1_witness :
    1 < chunksW.length ∧
    ((runChunks engNone (HarmonyParser.init ([] : List StreamEvent)) chunksW).2.map
        emitLen)[1]? = some 1 := by
  have h := (claim_C1 engNone ([] : List StreamEvent) chunksW).2.1 1 (by decide)
  refine ⟨by decide, ?_⟩
  rw [h]
  decide

end HarmonySpec
